import Mathlib

/-!
Verification of the virtotg VM-disk backup tool (src/virt_otg.py, src/backup.py).

Paths are modelled as lists of characters.  Python's `str.startswith` and
`str.endswith` are modelled by `pstarts` and `pends` below.  The virtualization
manager (virsh) and the filesystem are modelled as explicit environments.

The file is organised as: all definitions (the embedding of the code), then
all theorems.
-/

/-! ## Path primitives -/

/-- Python `s.startswith(p)`: `pstarts s p`. -/
def pstarts : List Char → List Char → Bool
  | _, [] => true
  | [], _ :: _ => false
  | a :: s, b :: p => a == b && pstarts s p

/-- Python `s.endswith(p)`: `pends s p`. -/
def pends (s p : List Char) : Bool :=
  pstarts s.reverse p.reverse

/-- The persistent-image extension checked by the cleanup guard
(`disk_path.endswith(".qcow2")` in `cleanup_disks`). -/
def qcow2Ext : List Char := ".qcow2".toList

/-- Python `os.path.basename`: the component after the last `/`. -/
def basename (p : List Char) : List Char :=
  (p.splitOn '/').getLastD []

/-- Python `os.path.join(a, b)` for two components: an absolute second
component replaces the first; otherwise the components are joined with a
single `/` separator. -/
def pathJoin (a b : List Char) : List Char :=
  if pstarts b ['/'] then b
  else if a = [] || pends a ['/'] then a ++ b
  else a ++ '/' :: b

/-- A path rooted under a directory, in the sense of the claim and spec
wording: the path is the directory itself or lies below it past a `/`
separator.  This follows the source's own mount-point test in
`is_on_mounted_drive` (`directory == mount_point or
directory.startswith(mount_point + '/')`); it is NOT the bare
`str.startswith(self.drive)` check that `cleanup_disks` performs, and the
two differ on sibling directories sharing a name as string leading piece. -/
def rootedUnder (p d : List Char) : Bool :=
  p == d || pstarts p (d ++ ['/'])

/-!
## Disk Set Cleaner: `VirtOTG.cleanup_disks`

```python
def cleanup_disks(self, disk_paths):
    for disk_path in disk_paths:
        try:
            if disk_path.endswith(".qcow2") and not disk_path.startswith(self.drive):
                raise ValueError(...)      # UnsafeDeletionError
            self.run_command(f"rm -f {disk_path}")
        except Exception as e:
            logging.error(...)
            raise
```

The filesystem is modelled as the list `fs` of currently existing paths;
`rm -f p` removes `p` from it and succeeds whether or not `p` exists.
The result is the filesystem state when the call returns or when the
exception propagates, paired with `true` on normal return and `false`
when `UnsafeDeletionError` aborts the loop.
-/

def cleanup_disks (drive : List Char) (fs : List (List Char)) :
    List (List Char) → List (List Char) × Bool
  | [] => (fs, true)
  | p :: rest =>
    if pends p qcow2Ext && !(pstarts p drive) then
      (fs, false)
    else
      cleanup_disks drive (fs.filter (fun q => !(q == p))) rest

/-- Deleting every path of `paths` from the filesystem `fs`, in order
(the effect of a sequence of `rm -f` commands). -/
def deleteAll (fs : List (List Char)) (paths : List (List Char)) : List (List Char) :=
  paths.foldl (fun f p => f.filter (fun q => !(q == p))) fs

/-!
## Block-Commit Controller: `VirtOTG.perform_blockcommit`

```python
def perform_blockcommit(self, disk_paths, shallow=False, only_suffix=None):
    executed_disk_paths = []
    for disk_path in disk_paths:
        try:
            if only_suffix and not disk_path.endswith(only_suffix):
                continue
            self.run_command(f"virsh blockcommit {self.domain} {disk_path} --active --verbose --pivot ...")
            started_waiting = time.time()
            while True:
                output = self.run_command(f"virsh domblklist {self.domain} --details")
                if 'block_commit' not in output:
                    break
                if time.time() - started_waiting > 60:
                    raise TimeoutError(...)
                time.sleep(1)
            executed_disk_paths.append(disk_path)
        except Exception as e:
            raise
    return executed_disk_paths
```

The manager is modelled by `inProgress : Nat → Bool` per disk: whether the
`block_commit` marker appears in the `domblklist` output at the k-th poll
after the merge for that disk was issued.  Each `time.sleep(1)` advances the
elapsed time by one unit, so the k-th poll sees elapsed time k; the deadline
check `elapsed > 60` therefore fires at poll 61 at the latest, so 62 polls
bound the loop and the recursion is written with that bound as fuel.
-/

/-- The polling loop after one blockcommit command: `true` if the in-progress
marker cleared before the deadline, `false` on `CommitTimeoutError`. -/
def waitForCommitAux (inProgress : Nat → Bool) : Nat → Nat → Bool
  | 0, _ => false
  | fuel + 1, k =>
    if inProgress k = false then true
    else if 60 < k then false
    else waitForCommitAux inProgress fuel (k + 1)

def waitForCommit (inProgress : Nat → Bool) : Bool :=
  waitForCommitAux inProgress 62 0

/-- The skip test `only_suffix and not disk_path.endswith(only_suffix)`
(an empty suffix string is falsy in Python and disables skipping). -/
def skipDisk (only_suffix : Option (List Char)) (p : List Char) : Bool :=
  match only_suffix with
  | some s => !s.isEmpty && !(pends p s)
  | none => false

/-- Result of `perform_blockcommit`: `executed` is `executed_disk_paths` when
the call returns or when the timeout exception propagates; `merges` lists the
disks for which a `virsh blockcommit` command was issued, in order;
`timedOut` names the disk whose poll loop hit the deadline, if any. -/
structure BlockcommitResult where
  executed : List (List Char)
  merges : List (List Char)
  timedOut : Option (List Char)
deriving DecidableEq

/-- `perform_blockcommit`.  `env p` is the per-disk poll environment; the
`shallow` flag only changes the issued command's flags, not the control
flow, so it is not a parameter of the model. -/
def perform_blockcommit (env : List Char → Nat → Bool) (only_suffix : Option (List Char)) :
    List (List Char) → BlockcommitResult
  | [] => ⟨[], [], none⟩
  | p :: rest =>
    if skipDisk only_suffix p then
      perform_blockcommit env only_suffix rest
    else if waitForCommit (env p) then
      let r := perform_blockcommit env only_suffix rest
      ⟨p :: r.executed, p :: r.merges, r.timedOut⟩
    else
      ⟨[], [p], some p⟩

/-!
## Snapshot Controller: `VirtOTG.create_snapshot`

```python
def create_snapshot(self, disk_paths, suffix):
    snapshot_name = f"backup_{...timestamp...}"
    snapshot_xml = "<domainsnapshot><name>...</name><disks>"
    for disk_path in disk_paths:
        snapshot_xml += f"<disk name='{disk_path}' snapshot='external'>" \
                        f"<source file='{disk_path}.{suffix}'/></disk>"
    snapshot_xml += "</disks></domainsnapshot>"
    xml_path = f"/tmp/{snapshot_name}.xml"
    with open(xml_path, 'w') as f: f.write(snapshot_xml)
    try:
        self.run_command(f"virsh snapshot-create {self.domain} {xml_path} --disk-only --quiesce")
        os.remove(xml_path)
        return snapshot_name
    except Exception as e:
        if os.path.exists(xml_path): os.remove(xml_path)
        raise
```

The single `virsh snapshot-create` call is modelled by `SnapshotCall`: the
per-disk `(name, source file)` entries of the written snapshot definition
plus the `--disk-only` and `--quiesce` flags.  `managerOk` is whether the
manager accepts the call.
-/

structure SnapshotCall where
  overlays : List (List Char × List Char)
  diskOnly : Bool
  quiesce : Bool
deriving DecidableEq

/-- The per-disk `<disk name=... ><source file='{disk_path}.{suffix}'/>`
entries, accumulated over the loop in source order. -/
def snapshotDiskEntries (suffix : List Char) : List (List Char) → List (List Char × List Char)
  | [] => []
  | p :: rest => (p, p ++ '.' :: suffix) :: snapshotDiskEntries suffix rest

structure SnapshotResult where
  call : SnapshotCall
  xmlFileRemains : Bool
  ok : Bool
deriving DecidableEq

def create_snapshot (disk_paths : List (List Char)) (suffix : List Char)
    (managerOk : Bool) : SnapshotResult :=
  let call : SnapshotCall := ⟨snapshotDiskEntries suffix disk_paths, true, true⟩
  -- the snapshot definition file is written to /tmp before the call
  if managerOk then
    -- success branch: `os.remove(xml_path)` then return
    ⟨call, false, true⟩
  else
    -- failure branch: the file exists, so it is removed, and the error re-raised
    ⟨call, false, false⟩

/-!
## Transfer Engine: `VirtOTG.copy_file_with_progress`

The source file is a byte list plus metadata.  The per-iteration behaviour of
the I/O layer is an oracle `env : Nat → IoStep` keyed by the current `copied`
offset (strictly increasing across iterations):
* `ok hint`  — `os.sendfile` succeeds; the kernel transfers
  `min (max hint 1) count` bytes of the `count` requested (at least one byte
  when data remains, as for a regular file),
* `oserr`    — `os.sendfile` raises `OSError` and the buffered
  read/write fallback of that iteration succeeds,
* `fail`     — an unrecoverable I/O error is raised this iteration.

In the fallback-only branch (no `os.sendfile`), `ok`/`oserr` both mean the
buffered read/write succeeds.  Reads see the static source content at the
current offset, which the loop keeps equal to `copied`.

`print_progress(copied, file_size)` computes `current / total * 100`, which
raises `ZeroDivisionError` when `total == 0`; the model keeps that hazard
and the proofs show it is unreachable.  Progress output is the trace of
`(copied, total)` pairs printed, recorded only in interactive runs.
-/

inductive IoStep where
  | ok (hint : Nat)
  | oserr
  | fail
deriving DecidableEq

structure FileData where
  content : List Nat
  perm : Nat
  mtime : Nat
  atime : Nat
deriving DecidableEq

/-- One progress report: appends `(copied, total)` when interactive, raising
`ZeroDivisionError` (modelled as `Except.error`) if `total = 0`. -/
def progressStep (interactive : Bool) (copied total : Nat) (tr : List (Nat × Nat)) :
    Except Unit (List (Nat × Nat)) :=
  if interactive then
    if total = 0 then .error ()
    else .ok (tr ++ [(copied, total)])
  else .ok tr

/-- The `while copied < file_size` sendfile loop with `OSError` fallback.
Returns `none` when the fuel runs out (never, for fuel > source length),
`some (.error ())` when an exception escapes, and `some (.ok (dst, trace))`
when the loop finishes. -/
def sendfileCopyLoop (src : List Nat) (chunk : Nat) (env : Nat → IoStep)
    (interactive : Bool) :
    Nat → Nat → List Nat → List (Nat × Nat) → Option (Except Unit (List Nat × List (Nat × Nat)))
  | 0, _, _, _ => none
  | fuel + 1, copied, dst, tr =>
    if copied < src.length then
      match env copied with
      | .ok hint =>
        let request := min chunk (src.length - copied)
        let sent := min (max hint 1) request
        if sent = 0 then some (.ok (dst, tr))      -- `if sent == 0: break`
        else
          match progressStep interactive (copied + sent) src.length tr with
          | .error _ => some (.error ())
          | .ok tr' =>
            sendfileCopyLoop src chunk env interactive fuel (copied + sent)
              (dst ++ (src.drop copied).take sent) tr'
      | .oserr =>
        -- fallback: chunk = src.read(min(chunk_size, remaining))
        let chunkBytes := (src.drop copied).take (min chunk (src.length - copied))
        if chunkBytes.isEmpty then some (.ok (dst, tr))  -- `if not chunk: break`
        else
          match progressStep interactive (copied + chunkBytes.length) src.length tr with
          | .error _ => some (.error ())
          | .ok tr' =>
            sendfileCopyLoop src chunk env interactive fuel (copied + chunkBytes.length)
              (dst ++ chunkBytes) tr'
      | .fail => some (.error ())
    else some (.ok (dst, tr))

/-- The `while True: chunk = src.read(chunk_size)` fallback loop used when
`os.sendfile` is unavailable. -/
def plainCopyLoop (src : List Nat) (chunk : Nat) (env : Nat → IoStep)
    (interactive : Bool) :
    Nat → Nat → List Nat → List (Nat × Nat) → Option (Except Unit (List Nat × List (Nat × Nat)))
  | 0, _, _, _ => none
  | fuel + 1, copied, dst, tr =>
    match env copied with
    | .fail => some (.error ())
    | _ =>
      let chunkBytes := (src.drop copied).take chunk
      if chunkBytes.isEmpty then some (.ok (dst, tr))    -- `if not chunk: break`
      else
        match progressStep interactive (copied + chunkBytes.length) src.length tr with
        | .error _ => some (.error ())
        | .ok tr' =>
          plainCopyLoop src chunk env interactive fuel (copied + chunkBytes.length)
            (dst ++ chunkBytes) tr'

/-- `copy_file_with_progress`.  The result is `none` if the fuel ran out,
otherwise `(destination file after the call, success, progress trace)`:
on an exception the partial destination is unlinked
(`if os.path.exists(dst_path): os.unlink(dst_path); raise`), so the
destination is `none`; on success `shutil.copystat` copies the source's
permission bits and modification/access timestamps onto the destination. -/
def copy_file_with_progress (hasSendfile interactive : Bool) (env : Nat → IoStep)
    (src : FileData) (chunk fuel : Nat) :
    Option (Option FileData × Bool × List (Nat × Nat)) :=
  let run :=
    if hasSendfile then sendfileCopyLoop src.content chunk env interactive fuel 0 [] []
    else plainCopyLoop src.content chunk env interactive fuel 0 [] []
  match run with
  | none => none
  | some (.error _) => some (none, false, [])
  | some (.ok (bytes, tr)) =>
    some (some ⟨bytes, src.perm, src.mtime, src.atime⟩, true, tr)

/-!
## `VirtOTG.backup_disks` and the orchestrator workflows of backup.py
-/

/-- `backup_disks`: the `(source, destination)` pairs handed to
`copy_file_with_progress`, with `dest = os.path.join(backup_dir, os.path.basename(disk_path))`
and `backup_dir = os.path.join(self.drive, intermediate_dir)` when an
intermediate directory is given. -/
def backup_disks (drive : List Char) (intermediate : Option (List Char))
    (paths : List (List Char)) : List (List Char × List Char) :=
  paths.map fun p =>
    match intermediate with
    | some d => (p, pathJoin (pathJoin drive d) (basename p))
    | none => (p, pathJoin drive (basename p))

/-- Suffix `"snap"` passed by backup.py to `perform_blockcommit`
(`only_suffix="snap"`, without a dot). -/
def snapSuffix : List Char := "snap".toList

/-- Suffix `"tmp"` passed by backup.py to `create_snapshot`. -/
def tmpSuffix : List Char := "tmp".toList

/-- Extension `".snap"` used by backup.py for `snap_files`. -/
def dotSnap : List Char := ".snap".toList

/-- Extension `".tmp"` checked by the incremental branch. -/
def dotTmp : List Char := ".tmp".toList

/-- Trace of the full-backup branch of backup.py `main`.  Stage fields are
filled as the workflow reaches them; `ok` is `false` when a stage raised and
the workflow aborted. -/
structure FullBackupTrace where
  committed : List (List Char)
  hostCleanTargets : List (List Char)
  snapshotCall : Option SnapshotCall
  remoteCleanTargets : List (List Char)
  copies : List (List Char × List Char)
  ok : Bool
deriving DecidableEq

/-- The full-backup branch:

```python
disks_to_rm = virtotg.perform_blockcommit(disk_paths, only_suffix="snap")
virtotg.cleanup_disks(disks_to_rm)
backing_disk_paths = virtotg.get_disk_paths()
virtotg.create_snapshot(backing_disk_paths, "snap")
remote_disks = [os.path.join(args.drive, os.path.basename(p)) for p in backing_disk_paths]
virtotg.cleanup_disks(remote_disks)
virtotg.backup_disks(backing_disk_paths)
```

`q1` is the initial `get_disk_paths()` inventory, `q2` the re-query after
commit and host cleanup; `fs` is the filesystem path list used by the
cleanup model. -/
def full_backup (drive : List Char) (env : List Char → Nat → Bool)
    (q1 q2 : List (List Char)) (managerOk : Bool) (fs : List (List Char)) :
    FullBackupTrace :=
  let bc := perform_blockcommit env (some snapSuffix) q1
  if bc.timedOut.isSome then ⟨bc.executed, [], none, [], [], false⟩
  else
    let c1 := cleanup_disks drive fs bc.executed
    if !c1.2 then ⟨bc.executed, bc.executed, none, [], [], false⟩
    else
      let snap := create_snapshot q2 snapSuffix managerOk
      if !snap.ok then ⟨bc.executed, bc.executed, some snap.call, [], [], false⟩
      else
        let remote := q2.map fun p => pathJoin drive (basename p)
        let c2 := cleanup_disks drive c1.1 remote
        if !c2.2 then ⟨bc.executed, bc.executed, some snap.call, remote, [], false⟩
        else
          ⟨bc.executed, bc.executed, some snap.call, remote, backup_disks drive none q2, true⟩

/-- Trace of the incremental-backup branch of backup.py `main`.
`snapshotCalls` records each `create_snapshot` invocation as
`(disk set, suffix)`. -/
structure IncBackupTrace where
  snapshotCalls : List (List (List Char) × List Char)
  copies : List (List Char × List Char)
  committed : List (List Char)
  ok : Bool
deriving DecidableEq

/-- The incremental-backup branch:

```python
snap_files = [p for p in disk_paths if p.endswith(".snap")]
if not snap_files: sys.exit(1)
tmp_disk_paths = virtotg.get_disk_paths()
do_snap = True
for disk_path in tmp_disk_paths:
    if disk_path.endswith(".tmp"):
        do_snap = False
        break
if do_snap:
    virtotg.create_snapshot(disk_paths, "tmp")
virtotg.backup_disks(disk_paths, intermediate_dir=backup_time)
tmp_disk_paths = virtotg.get_disk_paths()
disks_to_rm = virtotg.perform_blockcommit(tmp_disk_paths, shallow=True)
virtotg.cleanup_disks(disks_to_rm)
```

`q1` is the initial inventory (`disk_paths`), `q2` the query checked for an
existing `.tmp` overlay, `q3` the post-copy query handed to the block-commit;
`stamp` is the timestamp-named intermediate directory. -/
def incremental_backup (drive : List Char) (env : List Char → Nat → Bool)
    (q1 q2 q3 : List (List Char)) (managerOk : Bool) (stamp : List Char)
    (fs : List (List Char)) : IncBackupTrace :=
  let snap_files := q1.filter fun p => pends p dotSnap
  if snap_files.isEmpty then ⟨[], [], [], false⟩
  else
    let do_snap := !(q2.any fun p => pends p dotTmp)
    let snapCalls := if do_snap then [(q1, tmpSuffix)] else []
    let snapOk := if do_snap then (create_snapshot q1 tmpSuffix managerOk).ok else true
    if !snapOk then ⟨snapCalls, [], [], false⟩
    else
      let cps := backup_disks drive (some stamp) q1
      let bc := perform_blockcommit env none q3
      if bc.timedOut.isSome then ⟨snapCalls, cps, bc.executed, false⟩
      else
        let c := cleanup_disks drive fs bc.executed
        ⟨snapCalls, cps, bc.executed, c.2⟩

/-- Forgetting the progress trace of a copy-loop result, keeping the
destination bytes and the success/error outcome. -/
def dropTrace : Option (Except Unit (List Nat × List (Nat × Nat))) →
    Option (Except Unit (List Nat))
  | none => none
  | some (.error e) => some (.error e)
  | some (.ok (bytes, _)) => some (.ok bytes)

/-! # Theorems -/

/-! ## Path primitive lemmas -/

theorem pstarts_append (p t : List Char) : pstarts (p ++ t) p = true := by
  induction p with
  | nil => cases t <;> rfl
  | cons a as ih => simp [pstarts, ih]

theorem pends_append (t p : List Char) : pends (t ++ p) p = true := by
  unfold pends
  rw [List.reverse_append]
  exact pstarts_append p.reverse t.reverse

theorem pstarts_head (s : List Char) (a b : Char) (u v : List Char)
    (ha : pstarts s (a :: u) = true) (hb : pstarts s (b :: v) = true) : a = b := by
  cases s with
  | nil => simp [pstarts] at ha
  | cons c cs =>
    simp only [pstarts, Bool.and_eq_true, beq_iff_eq] at ha hb
    exact ha.1.symm.trans hb.1

/-- Two suffixes ending in different final characters cannot both hold. -/
theorem pends_last_ne (s : List Char) (p q : List Char) (a b : Char)
    (hp : p.getLast? = some a) (hq : q.getLast? = some b) (hab : a ≠ b)
    (hps : pends s p = true) : pends s q = false := by
  by_contra h
  rw [Bool.not_eq_false] at h
  unfold pends at hps h
  have hp' : p.reverse = a :: p.reverse.tail := by
    cases hrev : p.reverse with
    | nil =>
      rw [List.reverse_eq_nil_iff] at hrev
      subst hrev; simp at hp
    | cons x xs =>
      have : p.getLast? = some x := by
        rw [← List.head?_reverse, hrev]; rfl
      rw [hp] at this
      simp at this
      simp [this]
  have hq' : q.reverse = b :: q.reverse.tail := by
    cases hrev : q.reverse with
    | nil =>
      rw [List.reverse_eq_nil_iff] at hrev
      subst hrev; simp at hq
    | cons x xs =>
      have : q.getLast? = some x := by
        rw [← List.head?_reverse, hrev]; rfl
      rw [hq] at this
      simp at this
      simp [this]
  rw [hp'] at hps
  rw [hq'] at h
  exact hab (pstarts_head s.reverse a b _ _ hps h)

/-! ## Cleaner lemmas -/

theorem deleteAll_nil (fs : List (List Char)) : deleteAll fs [] = fs := rfl

theorem deleteAll_cons (fs : List (List Char)) (p : List Char) (rest : List (List Char)) :
    deleteAll fs (p :: rest) = deleteAll (fs.filter (fun q => !(q == p))) rest := rfl

theorem mem_deleteAll (q : List Char) (paths : List (List Char)) :
    ∀ fs : List (List Char), q ∈ deleteAll fs paths ↔ q ∈ fs ∧ q ∉ paths := by
  induction paths with
  | nil => intro fs; simp [deleteAll_nil]
  | cons p rest ih =>
    intro fs
    rw [deleteAll_cons, ih]
    simp only [List.mem_filter, Bool.not_eq_eq_eq_not, Bool.not_true, beq_eq_false_iff_ne,
      ne_eq, List.mem_cons]
    constructor
    · rintro ⟨⟨hfs, hne⟩, hrest⟩
      exact ⟨hfs, by rintro (h | h) <;> [exact hne h; exact hrest h]⟩
    · rintro ⟨hfs, hnot⟩
      exact ⟨⟨hfs, fun h => hnot (Or.inl h)⟩, fun h => hnot (Or.inr h)⟩

/-- When every path passes the `.qcow2` location guard, `cleanup_disks` removes
each path in turn and returns normally. -/
theorem cleanup_disks_safe (drive : List Char) (paths : List (List Char)) :
    ∀ fs : List (List Char),
      (∀ p ∈ paths, ¬(pends p qcow2Ext = true ∧ pstarts p drive = false)) →
      cleanup_disks drive fs paths = (deleteAll fs paths, true) := by
  induction paths with
  | nil => intro fs _; rfl
  | cons p rest ih =>
    intro fs h
    have hp := h p (List.mem_cons_self p rest)
    have hguard : (pends p qcow2Ext && !(pstarts p drive)) = false := by
      cases hq : pends p qcow2Ext with
      | false => simp [hq]
      | true =>
        cases hs : pstarts p drive with
        | false => exact absurd ⟨hq, hs⟩ hp
        | true => simp [hq, hs]
    rw [cleanup_disks, hguard]
    simp only [Bool.false_eq_true, if_false, deleteAll_cons]
    exact ih _ (fun q hq => h q (List.mem_cons_of_mem p hq))

/-- Appending an unsafe path after a safe prefix: the loop deletes the prefix
and aborts at the unsafe path with the filesystem unchanged from then on. -/
theorem cleanup_disks_unsafe_aux (drive : List Char) (u : List Char)
    (l₂ : List (List Char)) (h₂ : pends u qcow2Ext = true)
    (h₃ : pstarts u drive = false) (l₁ : List (List Char)) :
    ∀ fs : List (List Char),
      (∀ p ∈ l₁, ¬(pends p qcow2Ext = true ∧ pstarts p drive = false)) →
      cleanup_disks drive fs (l₁ ++ u :: l₂) = (deleteAll fs l₁, false) := by
  induction l₁ with
  | nil =>
    intro fs _
    rw [List.nil_append, cleanup_disks, h₂, h₃]
    rfl
  | cons p rest ih =>
    intro fs h
    have hp := h p (List.mem_cons_self p rest)
    have hguard : (pends p qcow2Ext && !(pstarts p drive)) = false := by
      cases hq : pends p qcow2Ext with
      | false => simp [hq]
      | true =>
        cases hs : pstarts p drive with
        | false => exact absurd ⟨hq, hs⟩ hp
        | true => simp [hq, hs]
    rw [List.cons_append, cleanup_disks, hguard]
    simp only [Bool.false_eq_true, if_false, deleteAll_cons]
    exact ih _ (fun q hq => h q (List.mem_cons_of_mem p hq))

/-- C1 counterexample: with drive `/mnt/ext`, the path `/mnt/extra/x.qcow2`
ends in `.qcow2` and is not rooted under the drive, yet `cleanup_disks`
deletes it and returns normally instead of raising `UnsafeDeletionError`,
because the code's guard is a bare string-prefix check. -/
theorem C1_cleanup_unsafe_aborts_counterexample :
    pends "/mnt/extra/x.qcow2".toList qcow2Ext = true ∧
    rootedUnder "/mnt/extra/x.qcow2".toList "/mnt/ext".toList = false ∧
    pstarts "/mnt/extra/x.qcow2".toList "/mnt/ext".toList = true ∧
    cleanup_disks "/mnt/ext".toList ["/mnt/extra/x.qcow2".toList]
        ["/mnt/extra/x.qcow2".toList] = ([], true) := by
  decide

/-- C1 (amended): For every disk-path set, `cleanup_disks` raises
`UnsafeDeletionError` on the first path that ends in `.qcow2` and whose
path string does not start with the external drive's path string — the
code's bare `str.startswith` check, which is strictly weaker than being
rooted under the drive (`rootedUnder`): a sibling such as
`/mnt/extra/x.qcow2` under drive `/mnt/ext` passes the check and is
deleted, refuting the claim as originally stated.  The run aborts without
deleting the offending path or any subsequent path; every earlier path in
the set that passes the guard is deleted, and deleting a missing file is
not an error: the safe prefix succeeds on any filesystem, with or without
the files present. -/
theorem C1_cleanup_unsafe_aborts (drive : List Char) (fs : List (List Char))
    (l₁ l₂ : List (List Char)) (u : List Char)
    (h₁ : ∀ p ∈ l₁, ¬(pends p qcow2Ext = true ∧ pstarts p drive = false))
    (h₂ : pends u qcow2Ext = true) (h₃ : pstarts u drive = false) :
    (cleanup_disks drive fs (l₁ ++ u :: l₂)).2 = false ∧
    (cleanup_disks drive fs (l₁ ++ u :: l₂)).1 = deleteAll fs l₁ ∧
    (u ∈ fs → u ∈ (cleanup_disks drive fs (l₁ ++ u :: l₂)).1) ∧
    (∀ q ∈ l₂, q ∈ fs → q ∉ l₁ → q ∈ (cleanup_disks drive fs (l₁ ++ u :: l₂)).1) ∧
    (∀ p ∈ l₁, p ∉ (cleanup_disks drive fs (l₁ ++ u :: l₂)).1) ∧
    (∀ fs' : List (List Char), cleanup_disks drive fs' l₁ = (deleteAll fs' l₁, true)) := by
  have hmain := cleanup_disks_unsafe_aux drive u l₂ h₂ h₃ l₁ fs h₁
  have hu_not_mem : u ∉ l₁ := fun hmem => h₁ u hmem ⟨h₂, h₃⟩
  refine ⟨by rw [hmain], by rw [hmain], ?_, ?_, ?_, ?_⟩
  · intro hu
    rw [hmain]
    exact (mem_deleteAll u l₁ fs).2 ⟨hu, hu_not_mem⟩
  · intro q _ hqfs hql₁
    rw [hmain]
    exact (mem_deleteAll q l₁ fs).2 ⟨hqfs, hql₁⟩
  · intro p hp
    rw [hmain]
    intro hmem
    exact ((mem_deleteAll p l₁ fs).1 hmem).2 hp
  · intro fs'
    exact cleanup_disks_safe drive l₁ fs' h₁

/-- Witness for C1: drive `/mnt/ext`; the safe paths `/vm/a.qcow2.snap`
(present) and `/vm/b.qcow2.tmp` (absent — deleting it is not an error) are
deleted; the first unsafe path `/vm/base.qcow2` aborts the run, leaving it
and the subsequent `/vm/c.qcow2` untouched. -/
theorem C1_cleanup_unsafe_aborts_witness :
    (cleanup_disks "/mnt/ext".toList
        ["/vm/a.qcow2.snap".toList, "/vm/base.qcow2".toList, "/vm/c.qcow2".toList]
        (["/vm/a.qcow2.snap".toList, "/vm/b.qcow2.tmp".toList] ++
          "/vm/base.qcow2".toList :: ["/vm/c.qcow2".toList])).2 = false ∧
    "/vm/base.qcow2".toList ∈
      (cleanup_disks "/mnt/ext".toList
        ["/vm/a.qcow2.snap".toList, "/vm/base.qcow2".toList, "/vm/c.qcow2".toList]
        (["/vm/a.qcow2.snap".toList, "/vm/b.qcow2.tmp".toList] ++
          "/vm/base.qcow2".toList :: ["/vm/c.qcow2".toList])).1 ∧
    "/vm/a.qcow2.snap".toList ∉
      (cleanup_disks "/mnt/ext".toList
        ["/vm/a.qcow2.snap".toList, "/vm/base.qcow2".toList, "/vm/c.qcow2".toList]
        (["/vm/a.qcow2.snap".toList, "/vm/b.qcow2.tmp".toList] ++
          "/vm/base.qcow2".toList :: ["/vm/c.qcow2".toList])).1 := by
  have h := C1_cleanup_unsafe_aborts "/mnt/ext".toList
    ["/vm/a.qcow2.snap".toList, "/vm/base.qcow2".toList, "/vm/c.qcow2".toList]
    ["/vm/a.qcow2.snap".toList, "/vm/b.qcow2.tmp".toList]
    ["/vm/c.qcow2".toList] "/vm/base.qcow2".toList
    (by decide) (by decide) (by decide)
  exact ⟨h.1, h.2.2.1 (by decide),
    h.2.2.2.2.1 "/vm/a.qcow2.snap".toList (by decide)⟩

/-- C10: For every path that does not end in `.qcow2` — whatever its name and
wherever it lies relative to the external drive (the drive is universally
quantified and unconstrained) — `cleanup_disks` issues the deletion
unconditionally and returns normally; the location guard applies only to
`.qcow2` paths. -/
theorem C10_cleanup_non_qcow2_unguarded (drive : List Char)
    (fs paths : List (List Char))
    (h : ∀ p ∈ paths, pends p qcow2Ext = false) :
    cleanup_disks drive fs paths = (deleteAll fs paths, true) ∧
    ∀ p ∈ paths, p ∉ (cleanup_disks drive fs paths).1 := by
  have hmain := cleanup_disks_safe drive paths fs
    (fun p hp hcontra => by rw [h p hp] at hcontra; exact absurd hcontra.1 (by simp))
  refine ⟨hmain, fun p hp hmem => ?_⟩
  rw [hmain] at hmem
  exact ((mem_deleteAll p paths fs).1 hmem).2 hp

/-- Witness for C10: a suffix-less image name `/vm/raw.img` and a `.snap`
overlay, both outside the drive `/mnt/ext`, are deleted without any
`UnsafeDeletionError`. -/
theorem C10_cleanup_non_qcow2_unguarded_witness :
    cleanup_disks "/mnt/ext".toList
        ["/vm/raw.img".toList, "/vm/a.qcow2.snap".toList]
        ["/vm/raw.img".toList, "/vm/a.qcow2.snap".toList] =
      (deleteAll ["/vm/raw.img".toList, "/vm/a.qcow2.snap".toList]
        ["/vm/raw.img".toList, "/vm/a.qcow2.snap".toList], true) ∧
    "/vm/raw.img".toList ∉
      (cleanup_disks "/mnt/ext".toList
        ["/vm/raw.img".toList, "/vm/a.qcow2.snap".toList]
        ["/vm/raw.img".toList, "/vm/a.qcow2.snap".toList]).1 := by
  have h := C10_cleanup_non_qcow2_unguarded "/mnt/ext".toList
    ["/vm/raw.img".toList, "/vm/a.qcow2.snap".toList]
    ["/vm/raw.img".toList, "/vm/a.qcow2.snap".toList] (by decide)
  exact ⟨h.1, h.2 "/vm/raw.img".toList (by decide)⟩

/-! ## Block-Commit Controller lemmas -/

/-- A marker that never clears makes the poll loop hit the deadline. -/
theorem waitForCommit_never (inP : Nat → Bool) (h : ∀ j, inP j = true) :
    waitForCommit inP = false := by
  have aux : ∀ fuel k, waitForCommitAux inP fuel k = false := by
    intro fuel
    induction fuel with
    | zero => intro k; rfl
    | succ n ih =>
      intro k
      rw [waitForCommitAux, h k]
      simp only [Bool.true_eq_false, if_false]
      split
      · rfl
      · exact ih (k + 1)
  exact aux 62 0

/-- With the `".snap"` suffix the skip test is the negation of the suffix
test. -/
theorem skipDisk_dotSnap (p : List Char) :
    skipDisk (some dotSnap) p = !(pends p dotSnap) := by
  show (!dotSnap.isEmpty && !(pends p dotSnap)) = !(pends p dotSnap)
  cases h : pends p dotSnap <;> simp [h, dotSnap]

/-- When every non-skipped disk's commit completes before the deadline,
`perform_blockcommit` commits exactly the non-skipped disks, in order, and
issues exactly those merge commands. -/
theorem perform_blockcommit_all_ok (env : List Char → Nat → Bool)
    (os : Option (List Char)) :
    ∀ paths : List (List Char),
      (∀ p ∈ paths, skipDisk os p = false → waitForCommit (env p) = true) →
      perform_blockcommit env os paths =
        ⟨paths.filter (fun p => !(skipDisk os p)),
         paths.filter (fun p => !(skipDisk os p)), none⟩ := by
  intro paths
  induction paths with
  | nil => intro _; rfl
  | cons p rest ih =>
    intro h
    have hrest := ih fun q hq => h q (List.mem_cons_of_mem p hq)
    rw [perform_blockcommit]
    cases hskip : skipDisk os p with
    | true => simp only [if_true, hrest, List.filter_cons, hskip]; rfl
    | false =>
      have hwait := h p (List.mem_cons_self p rest) hskip
      simp only [Bool.false_eq_true, if_false, hwait, if_true, hrest,
        List.filter_cons, hskip]
      rfl

/-- When the non-skipped prefix `l₁` commits fine and disk `d` (not skipped)
times out, the run aborts at `d`: `l₁`'s commits stand, `d`'s merge was the
last one issued, and nothing of `l₂` is attempted. -/
theorem perform_blockcommit_timeout (env : List Char → Nat → Bool)
    (os : Option (List Char)) (d : List Char)
    (hd : skipDisk os d = false) (hnever : waitForCommit (env d) = false) :
    ∀ l₁ : List (List Char),
      (∀ p ∈ l₁, skipDisk os p = false → waitForCommit (env p) = true) →
      ∀ l₂ : List (List Char),
        perform_blockcommit env os (l₁ ++ d :: l₂) =
          ⟨l₁.filter (fun p => !(skipDisk os p)),
           l₁.filter (fun p => !(skipDisk os p)) ++ [d], some d⟩ := by
  intro l₁
  induction l₁ with
  | nil =>
    intro _ l₂
    rw [List.nil_append, perform_blockcommit, hd]
    simp only [Bool.false_eq_true, if_false, hnever]
    rfl
  | cons p rest ih =>
    intro h l₂
    have hrest := ih (fun q hq => h q (List.mem_cons_of_mem p hq)) l₂
    rw [List.cons_append, perform_blockcommit]
    cases hskip : skipDisk os p with
    | true => simp only [if_true, hrest, List.filter_cons, hskip]; rfl
    | false =>
      have hwait := h p (List.mem_cons_self p rest) hskip
      simp only [Bool.false_eq_true, if_false, hwait, if_true, hrest,
        List.filter_cons, hskip]
      rfl

/-- C2: Called with `only_suffix=".snap"`, `perform_blockcommit` returns
exactly the ordered subsequence of input paths ending in `.snap` (when each
of those commits completes before the deadline), and issues no merge command
for any skipped path. -/
theorem C2_blockcommit_snap_subsequence (env : List Char → Nat → Bool)
    (paths : List (List Char))
    (h : ∀ p ∈ paths, pends p dotSnap = true → waitForCommit (env p) = true) :
    (perform_blockcommit env (some dotSnap) paths).executed =
      paths.filter (fun p => pends p dotSnap) ∧
    (perform_blockcommit env (some dotSnap) paths).merges =
      paths.filter (fun p => pends p dotSnap) ∧
    (perform_blockcommit env (some dotSnap) paths).timedOut = none ∧
    ∀ p ∈ paths, pends p dotSnap = false →
      p ∉ (perform_blockcommit env (some dotSnap) paths).merges := by
  have hfilter : (fun p => !(skipDisk (some dotSnap) p)) = fun p => pends p dotSnap := by
    funext p
    rw [skipDisk_dotSnap, Bool.not_not]
  have hmain := perform_blockcommit_all_ok env (some dotSnap) paths
    (fun p hp hskip => by
      rw [skipDisk_dotSnap, Bool.not_eq_false'] at hskip
      exact h p hp hskip)
  rw [hfilter] at hmain
  refine ⟨by rw [hmain], by rw [hmain], by rw [hmain], fun p hp hne hmem => ?_⟩
  rw [hmain] at hmem
  have := (List.mem_filter.1 hmem).2
  rw [hne] at this
  exact absurd this (by simp)

/-- Witness for C2: of `["/vm/a.qcow2.snap", "/vm/b.qcow2"]` only the
`.snap` path is committed and merged; no merge command is issued for
`/vm/b.qcow2`. -/
theorem C2_blockcommit_snap_subsequence_witness :
    (perform_blockcommit (fun _ _ => false) (some dotSnap)
        ["/vm/a.qcow2.snap".toList, "/vm/b.qcow2".toList]).executed =
      ["/vm/a.qcow2.snap".toList] ∧
    "/vm/b.qcow2".toList ∉
      (perform_blockcommit (fun _ _ => false) (some dotSnap)
        ["/vm/a.qcow2.snap".toList, "/vm/b.qcow2".toList]).merges := by
  have h := C2_blockcommit_snap_subsequence (fun _ _ => false)
    ["/vm/a.qcow2.snap".toList, "/vm/b.qcow2".toList]
    (by intro p hp hs; fin_cases hp <;> decide)
  refine ⟨?_, h.2.2.2 "/vm/b.qcow2".toList (by decide) (by decide)⟩
  rw [h.1]
  decide

/-- C3: If the in-progress marker of disk `d` never clears, the commit run
over `l₁ ++ [d] ++ l₂` raises `CommitTimeoutError` at `d`: the committed
list holds exactly the previously committed (non-skipped) disks of `l₁`,
the merge of `d` was issued, and no merge of any disk of `l₂` is attempted
(the issued merges are exactly `l₁`'s plus `d`). -/
theorem C3_blockcommit_timeout_aborts (env : List Char → Nat → Bool)
    (os : Option (List Char)) (d : List Char) (l₁ l₂ : List (List Char))
    (h₁ : ∀ p ∈ l₁, skipDisk os p = false → waitForCommit (env p) = true)
    (h₂ : skipDisk os d = false)
    (h₃ : ∀ k, env d k = true) :
    (perform_blockcommit env os (l₁ ++ d :: l₂)).timedOut = some d ∧
    (perform_blockcommit env os (l₁ ++ d :: l₂)).executed =
      l₁.filter (fun p => !(skipDisk os p)) ∧
    (perform_blockcommit env os (l₁ ++ d :: l₂)).merges =
      l₁.filter (fun p => !(skipDisk os p)) ++ [d] := by
  have hmain := perform_blockcommit_timeout env os d h₂
    (waitForCommit_never (env d) h₃) l₁ h₁ l₂
  exact ⟨by rw [hmain], by rw [hmain], by rw [hmain]⟩

/-- Witness for C3: `/vm/a.qcow2.snap` commits, `/vm/b.qcow2.snap`'s marker
never clears, so the run times out at it with the earlier commit retained
and no merge issued for the subsequent `/vm/c.qcow2.snap`. -/
theorem C3_blockcommit_timeout_aborts_witness :
    (perform_blockcommit
        (fun p _ => p == "/vm/b.qcow2.snap".toList) (some dotSnap)
        (["/vm/a.qcow2.snap".toList] ++ "/vm/b.qcow2.snap".toList ::
          ["/vm/c.qcow2.snap".toList])).timedOut =
      some "/vm/b.qcow2.snap".toList ∧
    (perform_blockcommit
        (fun p _ => p == "/vm/b.qcow2.snap".toList) (some dotSnap)
        (["/vm/a.qcow2.snap".toList] ++ "/vm/b.qcow2.snap".toList ::
          ["/vm/c.qcow2.snap".toList])).executed =
      ["/vm/a.qcow2.snap".toList] ∧
    (perform_blockcommit
        (fun p _ => p == "/vm/b.qcow2.snap".toList) (some dotSnap)
        (["/vm/a.qcow2.snap".toList] ++ "/vm/b.qcow2.snap".toList ::
          ["/vm/c.qcow2.snap".toList])).merges =
      ["/vm/a.qcow2.snap".toList, "/vm/b.qcow2.snap".toList] := by
  have h := C3_blockcommit_timeout_aborts
    (fun p _ => p == "/vm/b.qcow2.snap".toList) (some dotSnap)
    "/vm/b.qcow2.snap".toList ["/vm/a.qcow2.snap".toList]
    ["/vm/c.qcow2.snap".toList]
    (by intro p hp hs; fin_cases hp; decide)
    (by decide)
    (by intro k; simp)
  refine ⟨h.1, ?_, ?_⟩
  · rw [h.2.1]; decide
  · rw [h.2.2]; decide

/-! ## Snapshot Controller lemmas -/

theorem snapshotDiskEntries_eq_map (suffix : List Char) :
    ∀ paths : List (List Char),
      snapshotDiskEntries suffix paths =
        paths.map fun p => (p, p ++ '.' :: suffix) := by
  intro paths
  induction paths with
  | nil => rfl
  | cons p rest ih => rw [snapshotDiskEntries, ih]; rfl

/-- C8: For every disk set and suffix, `create_snapshot` requests from the
manager a single disk-only quiesced call holding one external overlay per
disk at exactly the path `<diskPath>.<suffix>`, and the ephemeral snapshot
definition file is removed after the call whether the manager call succeeds
or fails (`managerOk` covers both outcomes). -/
theorem C8_create_snapshot_call (disk_paths : List (List Char))
    (suffix : List Char) (managerOk : Bool) :
    (create_snapshot disk_paths suffix managerOk).call.overlays =
      (disk_paths.map fun p => (p, p ++ '.' :: suffix)) ∧
    (create_snapshot disk_paths suffix managerOk).call.diskOnly = true ∧
    (create_snapshot disk_paths suffix managerOk).call.quiesce = true ∧
    (create_snapshot disk_paths suffix managerOk).xmlFileRemains = false ∧
    (create_snapshot disk_paths suffix managerOk).ok = managerOk := by
  cases managerOk <;>
    exact ⟨snapshotDiskEntries_eq_map suffix disk_paths, rfl, rfl, rfl, rfl⟩

/-! ## Transfer Engine lemmas -/

/-- With a nonzero total, a progress report never raises and only appends to
the trace. -/
theorem progressStep_ne_zero (interactive : Bool) (c t : Nat)
    (tr : List (Nat × Nat)) (h : t ≠ 0) :
    progressStep interactive c t tr =
      .ok (if interactive then tr ++ [(c, t)] else tr) := by
  cases interactive <;> simp [progressStep, h]

/-- The sendfile loop, run on a source whose prefix is already copied, with a
positive chunk size, no unrecoverable error, and fuel above the number of
bytes left, terminates with the full source as destination content. -/
theorem sendfileCopyLoop_completes (src : List Nat) (chunk : Nat)
    (env : Nat → IoStep) (interactive : Bool) (hc : 1 ≤ chunk)
    (henv : ∀ k, env k ≠ IoStep.fail) :
    ∀ fuel copied : Nat, ∀ tr : List (Nat × Nat),
      copied ≤ src.length → src.length - copied < fuel →
      ∃ tr', sendfileCopyLoop src chunk env interactive fuel copied
          (src.take copied) tr = some (.ok (src, tr')) := by
  intro fuel
  induction fuel with
  | zero => intro copied tr _ hf; omega
  | succ n ih =>
    intro copied tr hle hf
    by_cases hlt : copied < src.length
    · have hlen0 : src.length ≠ 0 := by omega
      cases hstep : env copied with
      | fail => exact absurd hstep (henv copied)
      | ok hint =>
        have hsent1 : 1 ≤ min (max hint 1) (min chunk (src.length - copied)) := by omega
        have hsent2 : min (max hint 1) (min chunk (src.length - copied)) ≤
            src.length - copied := by omega
        obtain ⟨tr', htr'⟩ := ih (copied + min (max hint 1) (min chunk (src.length - copied)))
          (if interactive then
            tr ++ [(copied + min (max hint 1) (min chunk (src.length - copied)), src.length)]
          else tr)
          (by omega) (by omega)
        refine ⟨tr', ?_⟩
        simp only [sendfileCopyLoop, if_pos hlt, hstep]
        rw [progressStep_ne_zero interactive _ _ tr hlen0]
        simp only [if_neg (by omega : ¬ min (max hint 1) (min chunk (src.length - copied)) = 0)]
        rw [← List.take_add]
        exact htr'
      | oserr =>
        have hdlen : ((src.drop copied).take (min chunk (src.length - copied))).length =
            min chunk (src.length - copied) := by
          rw [List.length_take, List.length_drop]
          omega
        have hm1 : 1 ≤ min chunk (src.length - copied) := by omega
        have hne : ((src.drop copied).take (min chunk (src.length - copied))).isEmpty = false := by
          rw [List.isEmpty_eq_false_iff_exists_mem]
          have : ((src.drop copied).take (min chunk (src.length - copied))) ≠ [] := by
            intro hnil
            rw [hnil] at hdlen
            simp at hdlen
            omega
          exact List.exists_mem_of_ne_nil _ this
        obtain ⟨tr', htr'⟩ := ih (copied + min chunk (src.length - copied))
          (if interactive then
            tr ++ [(copied + min chunk (src.length - copied), src.length)]
          else tr)
          (by omega) (by omega)
        refine ⟨tr', ?_⟩
        simp only [sendfileCopyLoop, if_pos hlt, hstep, hne, Bool.false_eq_true, if_false,
          hdlen]
        rw [progressStep_ne_zero interactive _ _ tr hlen0]
        simp only []
        rw [← List.take_add]
        exact htr'
    · have hcopied : copied = src.length := by omega
      refine ⟨tr, ?_⟩
      simp only [sendfileCopyLoop, if_neg hlt]
      rw [hcopied, List.take_length]

/-- Taking `min n (length l)` elements is the same as taking `n`. -/
theorem take_min_length (l : List Nat) (n : Nat) : l.take (min n l.length) = l.take n := by
  rcases le_total n l.length with h | h
  · rw [min_eq_left h]
  · rw [min_eq_right h, List.take_length, List.take_of_length_le h]

/-- The buffered fallback loop terminates with the full source as
destination content under the same conditions. -/
theorem plainCopyLoop_completes (src : List Nat) (chunk : Nat)
    (env : Nat → IoStep) (interactive : Bool) (hc : 1 ≤ chunk)
    (henv : ∀ k, env k ≠ IoStep.fail) :
    ∀ fuel copied : Nat, ∀ tr : List (Nat × Nat),
      copied ≤ src.length → src.length - copied < fuel →
      ∃ tr', plainCopyLoop src chunk env interactive fuel copied
          (src.take copied) tr = some (.ok (src, tr')) := by
  intro fuel
  induction fuel with
  | zero => intro copied tr _ hf; omega
  | succ n ih =>
    intro copied tr hle hf
    have hdlen : ((src.drop copied).take chunk).length = min chunk (src.length - copied) := by
      rw [List.length_take, List.length_drop]
    by_cases hlt : copied < src.length
    · have hlen0 : src.length ≠ 0 := by omega
      have hm1 : 1 ≤ min chunk (src.length - copied) := by omega
      have hne : ((src.drop copied).take chunk).isEmpty = false := by
        rw [List.isEmpty_eq_false_iff_exists_mem]
        have : (src.drop copied).take chunk ≠ [] := by
          intro hnil
          rw [hnil] at hdlen
          simp at hdlen
          omega
        exact List.exists_mem_of_ne_nil _ this
      obtain ⟨tr', htr'⟩ := ih (copied + min chunk (src.length - copied))
        (if interactive then
          tr ++ [(copied + min chunk (src.length - copied), src.length)]
        else tr)
        (by omega) (by omega)
      refine ⟨tr', ?_⟩
      cases hstep : env copied with
      | fail => exact absurd hstep (henv copied)
      | ok hint =>
        simp only [plainCopyLoop, hstep, hne, Bool.false_eq_true, if_false, hdlen]
        rw [progressStep_ne_zero interactive _ _ tr hlen0]
        simp only []
        have htake : (src.drop copied).take chunk =
            (src.drop copied).take (min chunk (src.length - copied)) := by
          rw [← List.length_drop copied src]
          exact (take_min_length (src.drop copied) chunk).symm
        rw [htake, ← List.take_add]
        exact htr'
      | oserr =>
        simp only [plainCopyLoop, hstep, hne, Bool.false_eq_true, if_false, hdlen]
        rw [progressStep_ne_zero interactive _ _ tr hlen0]
        simp only []
        have htake : (src.drop copied).take chunk =
            (src.drop copied).take (min chunk (src.length - copied)) := by
          rw [← List.length_drop copied src]
          exact (take_min_length (src.drop copied) chunk).symm
        rw [htake, ← List.take_add]
        exact htr'
    · have hcopied : copied = src.length := by omega
      have hnil : (src.drop copied).take chunk = [] := by
        rw [hcopied, List.drop_length, List.take_nil]
      refine ⟨tr, ?_⟩
      cases hstep : env copied with
      | fail => exact absurd hstep (henv copied)
      | ok hint =>
        simp only [plainCopyLoop, hstep, hnil, List.isEmpty_nil, if_true]
        rw [hcopied, List.take_length]
      | oserr =>
        simp only [plainCopyLoop, hstep, hnil, List.isEmpty_nil, if_true]
        rw [hcopied, List.take_length]

/-- C7: For every source file — any size, including 0, 1 byte and more than
one chunk — a successful `copy_file_with_progress` run (the zero-copy
sendfile path or the buffered fallback, with any mix of per-iteration
sendfile `OSError` fallbacks) produces a destination whose byte content
equals the source's and whose permission and timestamp metadata equals the
source's. -/
theorem C7_copy_roundtrip (hasSendfile interactive : Bool) (env : Nat → IoStep)
    (src : FileData) (chunk fuel : Nat) (hc : 1 ≤ chunk)
    (henv : ∀ k, env k ≠ IoStep.fail) (hfuel : src.content.length < fuel) :
    ∃ tr, copy_file_with_progress hasSendfile interactive env src chunk fuel =
      some (some ⟨src.content, src.perm, src.mtime, src.atime⟩, true, tr) := by
  unfold copy_file_with_progress
  cases hasSendfile with
  | false =>
    obtain ⟨tr', h⟩ := plainCopyLoop_completes src.content chunk env interactive hc henv
      fuel 0 [] (by omega) (by omega)
    rw [List.take_zero] at h
    exact ⟨tr', by simp only [Bool.false_eq_true, if_false, h]⟩
  | true =>
    obtain ⟨tr', h⟩ := sendfileCopyLoop_completes src.content chunk env interactive hc henv
      fuel 0 [] (by omega) (by omega)
    rw [List.take_zero] at h
    exact ⟨tr', by simp only [if_true, h]⟩

/-- Witness for C7: files of size 0, of size 1, and of size 3 with chunk
size 2 (more than one chunk) round-trip with content and metadata intact,
on the sendfile path and on the buffered fallback. -/
theorem C7_copy_roundtrip_witness :
    (∃ tr, copy_file_with_progress true true (fun _ => IoStep.ok 1)
        ⟨[], 6, 10, 11⟩ 2 1 = some (some ⟨[], 6, 10, 11⟩, true, tr)) ∧
    (∃ tr, copy_file_with_progress true true (fun _ => IoStep.ok 1)
        ⟨[7], 6, 10, 11⟩ 2 2 = some (some ⟨[7], 6, 10, 11⟩, true, tr)) ∧
    (∃ tr, copy_file_with_progress true false (fun _ => IoStep.ok 9)
        ⟨[7, 8, 9], 6, 10, 11⟩ 2 4 = some (some ⟨[7, 8, 9], 6, 10, 11⟩, true, tr)) ∧
    (∃ tr, copy_file_with_progress false true (fun _ => IoStep.oserr)
        ⟨[7, 8, 9], 6, 10, 11⟩ 2 4 = some (some ⟨[7, 8, 9], 6, 10, 11⟩, true, tr)) := by
  refine ⟨?_, ?_, ?_, ?_⟩
  · exact C7_copy_roundtrip true true (fun _ => IoStep.ok 1) ⟨[], 6, 10, 11⟩ 2 1
      (by decide) (fun k h => IoStep.noConfusion h) (by decide)
  · exact C7_copy_roundtrip true true (fun _ => IoStep.ok 1) ⟨[7], 6, 10, 11⟩ 2 2
      (by decide) (fun k h => IoStep.noConfusion h) (by decide)
  · exact C7_copy_roundtrip true false (fun _ => IoStep.ok 9) ⟨[7, 8, 9], 6, 10, 11⟩ 2 4
      (by decide) (fun k h => IoStep.noConfusion h) (by decide)
  · exact C7_copy_roundtrip false true (fun _ => IoStep.oserr) ⟨[7, 8, 9], 6, 10, 11⟩ 2 4
      (by decide) (fun k h => IoStep.noConfusion h) (by decide)

/-- Case analysis of the result-assembly match of `copy_file_with_progress`. -/
theorem copyMatch_cases (src : FileData)
    (run : Option (Except Unit (List Nat × List (Nat × Nat))))
    (r : Option FileData × Bool × List (Nat × Nat))
    (h : (match run with
          | none => none
          | some (.error _) => some ((none : Option FileData), false, ([] : List (Nat × Nat)))
          | some (.ok (bytes, tr)) =>
            some (some ⟨bytes, src.perm, src.mtime, src.atime⟩, true, tr)) = some r) :
    (r.2.1 = false → r.1 = none) ∧
    (r.2.1 = true → ∃ d, r.1 = some d ∧ d.perm = src.perm ∧
      d.mtime = src.mtime ∧ d.atime = src.atime) := by
  rcases run with - | ea
  · exact absurd h (by simp)
  · rcases ea with e | ⟨bytes, tr⟩
    · obtain rfl : (none, false, []) = r := Option.some.inj h
      exact ⟨fun _ => rfl, fun hc => by simp at hc⟩
    · obtain rfl := Option.some.inj h
      exact ⟨fun hc => by simp at hc,
        fun _ => ⟨⟨bytes, src.perm, src.mtime, src.atime⟩, rfl, rfl, rfl, rfl⟩⟩

/-- C6: Whenever `copy_file_with_progress` terminates, a failed run leaves no
destination file (the partially written destination was removed before the
error was re-raised), and a successful run's destination carries the
source's permission bits and modification/access timestamps. -/
theorem C6_copy_failure_cleanup (hasSendfile interactive : Bool)
    (env : Nat → IoStep) (src : FileData) (chunk fuel : Nat)
    (r : Option FileData × Bool × List (Nat × Nat))
    (h : copy_file_with_progress hasSendfile interactive env src chunk fuel = some r) :
    (r.2.1 = false → r.1 = none) ∧
    (r.2.1 = true → ∃ d, r.1 = some d ∧ d.perm = src.perm ∧
      d.mtime = src.mtime ∧ d.atime = src.atime) :=
  copyMatch_cases src
    (if hasSendfile then sendfileCopyLoop src.content chunk env interactive fuel 0 [] []
     else plainCopyLoop src.content chunk env interactive fuel 0 [] []) r h

/-- Witness for C6: a run whose first write raises ends with no destination
file; a clean run of the same source ends with the source's metadata on the
destination. -/
theorem C6_copy_failure_cleanup_witness :
    ((some ((none : Option FileData), false, ([] : List (Nat × Nat)))).get rfl).1 = none ∧
    (∃ d, (some ⟨[7], 6, 10, 11⟩ : Option FileData) = some d ∧ d.perm = 6 ∧
      d.mtime = 10 ∧ d.atime = 11) := by
  have hfail := C6_copy_failure_cleanup true false (fun _ => IoStep.fail)
    ⟨[7], 6, 10, 11⟩ 1 2 (none, false, []) (by decide)
  have hok := C6_copy_failure_cleanup true false (fun _ => IoStep.ok 1)
    ⟨[7], 6, 10, 11⟩ 1 2 (some ⟨[7], 6, 10, 11⟩, true, []) (by decide)
  exact ⟨hfail.1 rfl, hok.2 rfl⟩

/-- The interactive flag only changes the progress trace of the sendfile
loop: destination bytes and outcome agree between an interactive and a
non-interactive run, from any pair of starting traces. -/
theorem sendfileCopyLoop_trace_only (src : List Nat) (chunk : Nat)
    (env : Nat → IoStep) :
    ∀ fuel copied : Nat, ∀ dst : List Nat, ∀ tr₁ tr₂ : List (Nat × Nat),
      dropTrace (sendfileCopyLoop src chunk env true fuel copied dst tr₁) =
        dropTrace (sendfileCopyLoop src chunk env false fuel copied dst tr₂) := by
  intro fuel
  induction fuel with
  | zero => intro copied dst tr₁ tr₂; rfl
  | succ n ih =>
    intro copied dst tr₁ tr₂
    by_cases hlt : copied < src.length
    · have hlen0 : src.length ≠ 0 := by omega
      cases hstep : env copied with
      | fail => simp only [sendfileCopyLoop, if_pos hlt, hstep]
      | ok hint =>
        simp only [sendfileCopyLoop, if_pos hlt, hstep]
        by_cases hs : min (max hint 1) (min chunk (src.length - copied)) = 0
        · simp only [if_pos hs]; rfl
        · simp only [if_neg hs]
          rw [progressStep_ne_zero true _ _ tr₁ hlen0,
            progressStep_ne_zero false _ _ tr₂ hlen0]
          simp only [if_true, Bool.false_eq_true, if_false]
          exact ih _ _ _ _
      | oserr =>
        simp only [sendfileCopyLoop, if_pos hlt, hstep]
        by_cases he : ((src.drop copied).take (min chunk (src.length - copied))).isEmpty
        · simp only [he, if_true]; rfl
        · simp only [he, Bool.false_eq_true, if_false]
          rw [progressStep_ne_zero true _ _ tr₁ hlen0,
            progressStep_ne_zero false _ _ tr₂ hlen0]
          simp only [if_true, Bool.false_eq_true, if_false]
          exact ih _ _ _ _
    · simp only [sendfileCopyLoop, if_neg hlt]; rfl

/-- Same for the buffered fallback loop. -/
theorem plainCopyLoop_trace_only (src : List Nat) (chunk : Nat)
    (env : Nat → IoStep) :
    ∀ fuel copied : Nat, ∀ dst : List Nat, ∀ tr₁ tr₂ : List (Nat × Nat),
      dropTrace (plainCopyLoop src chunk env true fuel copied dst tr₁) =
        dropTrace (plainCopyLoop src chunk env false fuel copied dst tr₂) := by
  intro fuel
  induction fuel with
  | zero => intro copied dst tr₁ tr₂; rfl
  | succ n ih =>
    intro copied dst tr₁ tr₂
    by_cases he : ((src.drop copied).take chunk).isEmpty
    · cases hstep : env copied with
      | fail => simp only [plainCopyLoop, hstep]
      | ok hint => simp only [plainCopyLoop, hstep, he, if_true]; rfl
      | oserr => simp only [plainCopyLoop, hstep, he, if_true]; rfl
    · have hlen0 : src.length ≠ 0 := by
        intro h0
        have hsrc : src = [] := List.length_eq_zero.mp h0
        rw [hsrc] at he
        simp [List.drop_nil, List.take_nil] at he
      cases hstep : env copied with
      | fail => simp only [plainCopyLoop, hstep]
      | ok hint =>
        simp only [plainCopyLoop, hstep, he, Bool.false_eq_true, if_false]
        rw [progressStep_ne_zero true _ _ tr₁ hlen0,
          progressStep_ne_zero false _ _ tr₂ hlen0]
        simp only [if_true, Bool.false_eq_true, if_false]
        exact ih _ _ _ _
      | oserr =>
        simp only [plainCopyLoop, hstep, he, Bool.false_eq_true, if_false]
        rw [progressStep_ne_zero true _ _ tr₁ hlen0,
          progressStep_ne_zero false _ _ tr₂ hlen0]
        simp only [if_true, Bool.false_eq_true, if_false]
        exact ih _ _ _ _

/-- C9: Two `copy_file_with_progress` runs that differ only in whether
standard output is an interactive terminal produce the same destination
file, metadata and success/failure outcome: progress reporting never alters
correctness. -/
theorem C9_interactive_no_interference (hasSendfile : Bool) (env : Nat → IoStep)
    (src : FileData) (chunk fuel : Nat) :
    Option.map (fun r => (r.1, r.2.1))
        (copy_file_with_progress hasSendfile true env src chunk fuel) =
      Option.map (fun r => (r.1, r.2.1))
        (copy_file_with_progress hasSendfile false env src chunk fuel) := by
  unfold copy_file_with_progress
  cases hasSendfile with
  | true =>
    have h := sendfileCopyLoop_trace_only src.content chunk env fuel 0 [] [] []
    simp only [if_true]
    rcases ha : sendfileCopyLoop src.content chunk env true fuel 0 [] [] with
        - | eu | ⟨ba, ta⟩ <;>
      rcases hb : sendfileCopyLoop src.content chunk env false fuel 0 [] [] with
        - | ev | ⟨bb, tb⟩ <;>
      rw [ha, hb] at h <;>
      simp only [dropTrace] at h <;>
      first
      | rfl
      | (simp at h; subst h; rfl)
      | simp at h
  | false =>
    have h := plainCopyLoop_trace_only src.content chunk env fuel 0 [] [] []
    simp only [Bool.false_eq_true, if_false]
    rcases ha : plainCopyLoop src.content chunk env true fuel 0 [] [] with
        - | eu | ⟨ba, ta⟩ <;>
      rcases hb : plainCopyLoop src.content chunk env false fuel 0 [] [] with
        - | ev | ⟨bb, tb⟩ <;>
      rw [ha, hb] at h <;>
      simp only [dropTrace] at h <;>
      first
      | rfl
      | (simp at h; subst h; rfl)
      | simp at h

/-! ## Orchestrator lemmas (backup.py) -/

/-- A non-empty suffix makes the skip test the negation of the suffix test. -/
theorem skipDisk_some (s : List Char) (hs : s.isEmpty = false) (p : List Char) :
    skipDisk (some s) p = !(pends p s) := by
  show (!s.isEmpty && !(pends p s)) = !(pends p s)
  rw [hs]
  cases pends p s <;> simp

/-- A path ending in `snap` cannot end in `.qcow2`. -/
theorem pends_snap_not_qcow2 (p : List Char) (h : pends p snapSuffix = true) :
    pends p qcow2Ext = false :=
  pends_last_ne p snapSuffix qcow2Ext 'p' '2' (by decide) (by decide)
    (by decide) h

/-- Joining a relative component onto a base keeps the base as a leading
piece of the result. -/
theorem pathJoin_pstarts (a b : List Char) (hb : pstarts b ['/'] = false) :
    pstarts (pathJoin a b) a = true := by
  unfold pathJoin
  rw [hb]
  simp only [Bool.false_eq_true, if_false]
  by_cases hc : a = [] || pends a ['/']
  · rw [if_pos hc]
    exact pstarts_append a b
  · rw [if_neg hc]
    exact pstarts_append a ('/' :: b)

/-- C4: In a successful full-backup run, the snapshot call creates one
`.snap` overlay per disk of the re-queried live set at `<base>.snap`, the
same-named files on the external drive are pre-cleaned, and the copies to
the external drive root take the pre-snapshot base paths (the re-queried
set, not the overlays) as sources. -/
theorem C4_full_backup_effects (drive : List Char) (env : List Char → Nat → Bool)
    (q1 q2 : List (List Char)) (fs : List (List Char))
    (hEnv : ∀ p ∈ q1, pends p snapSuffix = true → waitForCommit (env p) = true)
    (hbn : ∀ p ∈ q2, pstarts (basename p) ['/'] = false) :
    (full_backup drive env q1 q2 true fs).ok = true ∧
    (full_backup drive env q1 q2 true fs).snapshotCall =
      some ⟨q2.map (fun p => (p, p ++ '.' :: snapSuffix)), true, true⟩ ∧
    (full_backup drive env q1 q2 true fs).remoteCleanTargets =
      q2.map (fun p => pathJoin drive (basename p)) ∧
    (full_backup drive env q1 q2 true fs).copies =
      q2.map (fun p => (p, pathJoin drive (basename p))) ∧
    (full_backup drive env q1 q2 true fs).committed =
      q1.filter (fun p => pends p snapSuffix) := by
  have hfun : (fun p => !(skipDisk (some snapSuffix) p)) =
      fun p => pends p snapSuffix := by
    funext p
    rw [skipDisk_some snapSuffix (by decide) p, Bool.not_not]
  have hbc : perform_blockcommit env (some snapSuffix) q1 =
      ⟨q1.filter (fun p => pends p snapSuffix),
       q1.filter (fun p => pends p snapSuffix), none⟩ := by
    have := perform_blockcommit_all_ok env (some snapSuffix) q1
      (fun p hp hskip => by
        rw [skipDisk_some snapSuffix (by decide) p, Bool.not_eq_false'] at hskip
        exact hEnv p hp hskip)
    rwa [hfun] at this
  have hc1 : cleanup_disks drive fs (q1.filter (fun p => pends p snapSuffix)) =
      (deleteAll fs (q1.filter (fun p => pends p snapSuffix)), true) :=
    cleanup_disks_safe drive _ fs
      (fun p hp hcontra => by
        have hsnap := (List.mem_filter.1 hp).2
        rw [pends_snap_not_qcow2 p hsnap] at hcontra
        exact absurd hcontra.1 (by simp))
  have hc2 : cleanup_disks drive
      (deleteAll fs (q1.filter (fun p => pends p snapSuffix)))
      (q2.map fun p => pathJoin drive (basename p)) =
      (deleteAll (deleteAll fs (q1.filter (fun p => pends p snapSuffix)))
        (q2.map fun p => pathJoin drive (basename p)), true) :=
    cleanup_disks_safe drive _ _
      (fun t ht hcontra => by
        obtain ⟨p, hp, rfl⟩ := List.mem_map.1 ht
        rw [pathJoin_pstarts drive (basename p) (hbn p hp)] at hcontra
        exact absurd hcontra.2 (by simp))
  have hmain : full_backup drive env q1 q2 true fs =
      ⟨q1.filter (fun p => pends p snapSuffix),
       q1.filter (fun p => pends p snapSuffix),
       some ⟨snapshotDiskEntries snapSuffix q2, true, true⟩,
       q2.map (fun p => pathJoin drive (basename p)),
       backup_disks drive none q2, true⟩ := by
    unfold full_backup
    rw [hbc]
    simp only [Option.isSome_none, Bool.false_eq_true, if_false]
    rw [hc1]
    simp only [Bool.not_true, Bool.false_eq_true, if_false, create_snapshot, if_true]
    rw [hc2]
    simp only [Bool.not_true, Bool.false_eq_true, if_false]
  rw [hmain]
  refine ⟨rfl, ?_, rfl, ?_, rfl⟩
  · rw [snapshotDiskEntries_eq_map]
  · rfl

/-- Witness for C4: the spec's scenario — disks `/vm/a.qcow2`, `/vm/b.qcow2`,
drive `/mnt/ext` — yields overlays `/vm/a.qcow2.snap`, `/vm/b.qcow2.snap`,
pre-cleans `/mnt/ext/a.qcow2`, `/mnt/ext/b.qcow2`, and copies the bases
there. -/
theorem C4_full_backup_effects_witness :
    (full_backup "/mnt/ext".toList (fun _ _ => false)
        ["/vm/a.qcow2".toList, "/vm/b.qcow2".toList]
        ["/vm/a.qcow2".toList, "/vm/b.qcow2".toList] true []).ok = true ∧
    (full_backup "/mnt/ext".toList (fun _ _ => false)
        ["/vm/a.qcow2".toList, "/vm/b.qcow2".toList]
        ["/vm/a.qcow2".toList, "/vm/b.qcow2".toList] true []).snapshotCall =
      some ⟨[("/vm/a.qcow2".toList, "/vm/a.qcow2.snap".toList),
             ("/vm/b.qcow2".toList, "/vm/b.qcow2.snap".toList)], true, true⟩ ∧
    (full_backup "/mnt/ext".toList (fun _ _ => false)
        ["/vm/a.qcow2".toList, "/vm/b.qcow2".toList]
        ["/vm/a.qcow2".toList, "/vm/b.qcow2".toList] true []).remoteCleanTargets =
      ["/mnt/ext/a.qcow2".toList, "/mnt/ext/b.qcow2".toList] ∧
    (full_backup "/mnt/ext".toList (fun _ _ => false)
        ["/vm/a.qcow2".toList, "/vm/b.qcow2".toList]
        ["/vm/a.qcow2".toList, "/vm/b.qcow2".toList] true []).copies =
      [("/vm/a.qcow2".toList, "/mnt/ext/a.qcow2".toList),
       ("/vm/b.qcow2".toList, "/mnt/ext/b.qcow2".toList)] := by
  have h := C4_full_backup_effects "/mnt/ext".toList (fun _ _ => false)
    ["/vm/a.qcow2".toList, "/vm/b.qcow2".toList]
    ["/vm/a.qcow2".toList, "/vm/b.qcow2".toList] []
    (by intro p hp hs; fin_cases hp <;> decide)
    (by intro p hp; fin_cases hp <;> decide)
  refine ⟨h.1, ?_, ?_, ?_⟩
  · rw [h.2.1]; decide
  · rw [h.2.2.1]; decide
  · rw [h.2.2.2.1]; decide

/-- C5: In an incremental-backup run, if the queried disk set already holds a
`.tmp` path, snapshot creation is skipped entirely (no Snapshot Controller
call); if the run has its `.snap` baseline and the queried set holds no
`.tmp` path, exactly one snapshot-creation call, with suffix `tmp`, is
issued — whether or not the manager accepts it or later stages fail. -/
theorem C5_incremental_snapshot_idempotent (drive : List Char)
    (env : List Char → Nat → Bool) (q1 q2 q3 : List (List Char))
    (managerOk : Bool) (stamp : List Char) (fs : List (List Char)) :
    ((∃ p ∈ q2, pends p dotTmp = true) →
      (incremental_backup drive env q1 q2 q3 managerOk stamp fs).snapshotCalls = []) ∧
    ((q1.filter (fun p => pends p dotSnap)).isEmpty = false →
      (∀ p ∈ q2, pends p dotTmp = false) →
      (incremental_backup drive env q1 q2 q3 managerOk stamp fs).snapshotCalls =
        [(q1, tmpSuffix)]) := by
  constructor
  · intro hex
    have hany : (q2.any fun p => pends p dotTmp) = true := by
      rw [List.any_eq_true]
      obtain ⟨p, hp, hpt⟩ := hex
      exact ⟨p, hp, hpt⟩
    unfold incremental_backup
    by_cases hempty : (q1.filter fun p => pends p dotSnap).isEmpty = true
    · simp only [hempty, if_true]
    · simp only [hempty, if_false, hany, Bool.not_true, Bool.false_eq_true,
        if_false, Bool.not_false, if_true]
      split <;> rfl
  · intro hempty hnone
    have hany : (q2.any fun p => pends p dotTmp) = false := by
      rw [List.any_eq_false]
      intro p hp
      rw [hnone p hp]
      simp
    unfold incremental_backup
    simp only [hempty, Bool.false_eq_true, if_false, hany, Bool.not_false, if_true]
    split
    · rfl
    · split <;> rfl

/-- Witness for C5: with baseline `.snap` present, a queried set holding
`/vm/a.qcow2.tmp` yields no snapshot call, and a queried set without any
`.tmp` yields exactly the one call `(disk_paths, "tmp")`. -/
theorem C5_incremental_snapshot_idempotent_witness :
    (incremental_backup "/mnt/ext".toList (fun _ _ => false)
        ["/vm/a.qcow2".toList, "/vm/a.qcow2.snap".toList]
        ["/vm/a.qcow2".toList, "/vm/a.qcow2.tmp".toList]
        [] true "20240101_000000".toList []).snapshotCalls = [] ∧
    (incremental_backup "/mnt/ext".toList (fun _ _ => false)
        ["/vm/a.qcow2".toList, "/vm/a.qcow2.snap".toList]
        ["/vm/a.qcow2".toList, "/vm/a.qcow2.snap".toList]
        [] true "20240101_000000".toList []).snapshotCalls =
      [(["/vm/a.qcow2".toList, "/vm/a.qcow2.snap".toList], tmpSuffix)] := by
  constructor
  · exact (C5_incremental_snapshot_idempotent "/mnt/ext".toList (fun _ _ => false)
      ["/vm/a.qcow2".toList, "/vm/a.qcow2.snap".toList]
      ["/vm/a.qcow2".toList, "/vm/a.qcow2.tmp".toList]
      [] true "20240101_000000".toList []).1
      ⟨"/vm/a.qcow2.tmp".toList, by decide, by decide⟩
  · exact (C5_incremental_snapshot_idempotent "/mnt/ext".toList (fun _ _ => false)
      ["/vm/a.qcow2".toList, "/vm/a.qcow2.snap".toList]
      ["/vm/a.qcow2".toList, "/vm/a.qcow2.snap".toList]
      [] true "20240101_000000".toList []).2
      (by decide) (by intro p hp; fin_cases hp <;> decide)
